import Mathlib

/-!
Verification of the fifolock waiter-queue scheduler (src/fifolock.py).

The embedding models the lock state of a FifoLock instance: the deque
of waiting requests (each an asyncio.Future subclass carrying its mode
kind and its cancelled flag) and the defaultdict of hold counts keyed
by mode kind.  Hold counts are Python ints, so they are modelled as
integers (the code can drive them negative).  The admission loop
_maybe_acquire is a pure recursive function; the acquire protocol
(everything __aenter__ does before awaiting), the release protocol
(__aexit__) and future cancellation are steps of a labelled transition
system whose labels record which requests were granted (had
set_result called on them) during the step.
-/

set_option linter.unusedSectionVars false

namespace FifoLockModel

/-- One queued lock request: the lock-mode future created by __aenter__.
    kind identifies the mode class (the key used in the holds table),
    rid is the arrival index distinguishing the future object, and
    cancelled records whether the future is in the cancelled state. -/
structure Req (K : Type) where
  kind : K
  rid : Nat
  cancelled : Bool

deriving instance DecidableEq for Req

/-- Lock state of one FifoLock instance: self._waiters and self._holds,
    plus a counter supplying fresh arrival indices for new futures. -/
structure St (K : Type) where
  waiters : List (Req K)
  holds : K → Int
  next : Nat

/-- The state FifoLock.__init__ creates: empty deque, all-zero holds
    (defaultdict(int) reads as 0 for every key). -/
def initSt (K : Type) : St K :=
  ⟨[], fun _ => 0, 0⟩

variable {K : Type} [DecidableEq K]

/-- Increment of one hold bucket: self._holds[type(waiter)] += 1. -/
def bump (h : K → Int) (k : K) : K → Int :=
  fun x => if x = k then h x + 1 else h x

/-- Decrement of one hold bucket: self._holds[self._lock_mode_type] -= 1. -/
def deduct (h : K → Int) (k : K) : K → Int :=
  fun x => if x = k then h x - 1 else h x

/-- The admission loop _maybe_acquire (src/fifolock.py lines 22-34).
    Given the waiter deque and the holds table it returns the final
    holds table, the remaining deque, and the list of requests granted
    (popped and resolved with set_result) in grant order.  A cancelled
    head is popped and dropped; a compatible head is popped, its hold
    bucket incremented, and it is granted; an incompatible pending
    head stops the loop. -/
def maybeAcquire (c : K → (K → Int) → Bool) :
    List (Req K) → (K → Int) → (K → Int) × List (Req K) × List (Req K)
  | [], h => (h, [], [])
  | r :: rest, h =>
    if r.cancelled then
      maybeAcquire c rest h
    else if c r.kind h then
      let out := maybeAcquire c rest (bump h r.kind)
      (out.1, out.2.1, r :: out.2.2)
    else
      (h, r :: rest, [])

/-- The fresh future constructed by __aenter__: lock_mode = self._lock_mode_type(). -/
def newReq (k : K) (n : Nat) : Req K :=
  ⟨k, n, false⟩

/-- The state mutation of __aenter__ before the suspension point
    (src/fifolock.py lines 36-39): append a fresh request to the deque
    and run the admission loop.  Returns the new state and the list of
    requests granted during this call. -/
def acqOp (c : K → (K → Int) → Bool) (s : St K) (k : K) : St K × List (Req K) :=
  let out := maybeAcquire c (s.waiters ++ [newReq k s.next]) s.holds
  (⟨out.2.1, out.1, s.next + 1⟩, out.2.2)

/-- The state mutation of __aexit__ (src/fifolock.py lines 42-44):
    decrement the hold bucket of this context manager's mode type and
    run the admission loop.  Returns the new state and the granted list. -/
def relOp (c : K → (K → Int) → Bool) (s : St K) (k : K) : St K × List (Req K) :=
  let out := maybeAcquire c s.waiters (deduct s.holds k)
  (⟨out.2.1, out.1, s.next⟩, out.2.2)

/-- Effect on a queued future of the awaiting task being cancelled while
    the future is still pending: the future moves to the cancelled state
    in place; the queue is not scanned or patched and no admission loop
    runs. -/
def markCancelled (i : Nat) (r : Req K) : Req K :=
  if r.rid = i then ⟨r.kind, r.rid, true⟩ else r

/-- State after a pending waiter with arrival index i is cancelled. -/
def canOp (s : St K) (i : Nat) : St K :=
  ⟨s.waiters.map (markCancelled i), s.holds, s.next⟩

lemma markCancelled_rid (i : Nat) (r : Req K) : (markCancelled i r).rid = r.rid := by
  unfold markCancelled
  split <;> rfl

lemma maybeAcquire_nil (c : K → (K → Int) → Bool) (h : K → Int) :
    maybeAcquire c [] h = (h, [], []) := rfl

lemma maybeAcquire_cons_cancelled (c : K → (K → Int) → Bool) {r : Req K}
    (q : List (Req K)) (h : K → Int) (hr : r.cancelled = true) :
    maybeAcquire c (r :: q) h = maybeAcquire c q h := by
  simp [maybeAcquire, hr]

lemma maybeAcquire_cons_grant (c : K → (K → Int) → Bool) {r : Req K}
    (q : List (Req K)) (h : K → Int) (hr : r.cancelled = false) (hco : c r.kind h = true) :
    maybeAcquire c (r :: q) h =
      ((maybeAcquire c q (bump h r.kind)).1,
        (maybeAcquire c q (bump h r.kind)).2.1,
        r :: (maybeAcquire c q (bump h r.kind)).2.2) := by
  simp [maybeAcquire, hr, hco]

lemma maybeAcquire_cons_blocked (c : K → (K → Int) → Bool) {r : Req K}
    (q : List (Req K)) (h : K → Int) (hr : r.cancelled = false) (hco : c r.kind h = false) :
    maybeAcquire c (r :: q) h = (h, r :: q, []) := by
  simp [maybeAcquire, hr, hco]

/-- Structure of one admission-loop run: the input queue splits into a
    consumed prefix and the untouched remaining suffix; the granted
    requests form a sublist of the consumed prefix (the prefix is the
    granted requests interleaved with dropped cancelled ones), and every
    granted request was pending. -/
lemma maybeAcquire_split (c : K → (K → Int) → Bool) (q : List (Req K)) :
    ∀ h : K → Int,
      ∃ p, q = p ++ (maybeAcquire c q h).2.1 ∧
        (maybeAcquire c q h).2.2.Sublist p ∧
        ∀ r ∈ (maybeAcquire c q h).2.2, r.cancelled = false := by
  induction q with
  | nil =>
    intro h
    exact ⟨[], by simp [maybeAcquire_nil], by simp [maybeAcquire_nil], by simp [maybeAcquire_nil]⟩
  | cons r rest ih =>
    intro h
    cases hr : r.cancelled with
    | true =>
      rw [maybeAcquire_cons_cancelled c rest h hr]
      obtain ⟨p, hp, hs, hc⟩ := ih h
      exact ⟨r :: p, by rw [List.cons_append, ← hp], hs.cons r, hc⟩
    | false =>
      cases hco : c r.kind h with
      | false =>
        rw [maybeAcquire_cons_blocked c rest h hr hco]
        exact ⟨[], rfl, List.nil_sublist _, by simp⟩
      | true =>
        rw [maybeAcquire_cons_grant c rest h hr hco]
        obtain ⟨p, hp, hs, hc⟩ := ih (bump h r.kind)
        refine ⟨r :: p, ?_, ?_, ?_⟩
        · show r :: rest = (r :: p) ++ (maybeAcquire c rest (bump h r.kind)).2.1
          rw [List.cons_append, ← hp]
        · exact hs.cons₂ r
        · intro x hx
          rcases List.mem_cons.mp hx with hx | hx
          · rw [hx]; exact hr
          · exact hc x hx

/-- Fixed point of the admission loop: it stops only with an empty queue
    or with a pending head that is incompatible with the updated holds. -/
lemma maybeAcquire_stop (c : K → (K → Int) → Bool) (q : List (Req K)) :
    ∀ h : K → Int,
      (maybeAcquire c q h).2.1 = [] ∨
        ∃ r t, (maybeAcquire c q h).2.1 = r :: t ∧ r.cancelled = false ∧
          c r.kind ((maybeAcquire c q h).1) = false := by
  induction q with
  | nil =>
    intro h
    left
    rfl
  | cons r rest ih =>
    intro h
    cases hr : r.cancelled with
    | true =>
      rw [maybeAcquire_cons_cancelled c rest h hr]
      exact ih h
    | false =>
      cases hco : c r.kind h with
      | false =>
        right
        rw [maybeAcquire_cons_blocked c rest h hr hco]
        exact ⟨r, rest, rfl, hr, hco⟩
      | true =>
        rw [maybeAcquire_cons_grant c rest h hr hco]
        exact ih (bump h r.kind)

/-- Number of requests of one kind in a list (used to count grants per
    hold bucket). -/
def kindCount (k : K) (l : List (Req K)) : Nat :=
  l.countP (fun r => decide (r.kind = k))

/-- Number of requests with one arrival index in a list. -/
def ridCount (i : Nat) (l : List (Req K)) : Nat :=
  l.countP (fun r => decide (r.rid = i))

/-- Hold accounting of one admission-loop run: each grant increments
    exactly the hold bucket of the granted request's kind, using the
    holds already updated by earlier grants of the same run. -/
lemma maybeAcquire_holds (c : K → (K → Int) → Bool) (q : List (Req K)) :
    ∀ (h : K → Int) (k : K),
      (maybeAcquire c q h).1 k = h k + (kindCount k (maybeAcquire c q h).2.2 : Int) := by
  induction q with
  | nil =>
    intro h k
    simp [maybeAcquire_nil, kindCount]
  | cons r rest ih =>
    intro h k
    cases hr : r.cancelled with
    | true =>
      rw [maybeAcquire_cons_cancelled c rest h hr]
      exact ih h k
    | false =>
      cases hco : c r.kind h with
      | false =>
        simp [maybeAcquire_cons_blocked c rest h hr hco, kindCount]
      | true =>
        rw [maybeAcquire_cons_grant c rest h hr hco]
        have hrec := ih (bump h r.kind) k
        show (maybeAcquire c rest (bump h r.kind)).1 k =
          h k + (kindCount k (r :: (maybeAcquire c rest (bump h r.kind)).2.2) : Int)
        rw [hrec]
        unfold kindCount bump
        rw [List.countP_cons]
        by_cases hk : r.kind = k
        · simp [hk]
          ring
        · have hk' : ¬ k = r.kind := fun he => hk he.symm
          simp [hk, hk']

/-- Observable events on one lock.  acq records an __aenter__ call up to
    its suspension point (mode kind, arrival index of the new future,
    requests granted by the triggered admission loop); rel records an
    __aexit__ call (mode kind, requests granted); can records a task
    cancellation observed while its future was still pending and queued;
    cancelAfterGrant records a task cancellation observed after its
    future had already been resolved with success but before the task
    resumed (the grant/cancel race). -/
inductive Ev (K : Type) where
  | acq : K → Nat → List (Req K) → Ev K
  | rel : K → List (Req K) → Ev K
  | can : Nat → Ev K
  | cancelAfterGrant : Nat → Ev K

deriving instance DecidableEq for Ev

/-- Requests whose futures were resolved with success during an event. -/
def grantsOf : Ev K → List (Req K)
  | Ev.acq _ _ g => g
  | Ev.rel _ g => g
  | Ev.can _ => []
  | Ev.cancelAfterGrant _ => []

/-- One step of the lock:
    acq and rel are the two code paths that mutate the lock state
    (src/fifolock.py lines 36-44); can marks a pending queued future
    cancelled in place; cancelAfterGrant is the grant/cancel race as the
    code at lines 36-40 handles it: __aenter__ has no exception handler
    around its await, so the CancelledError propagates and the lock
    state is left unchanged. -/
inductive Step (c : K → (K → Int) → Bool) : St K → Ev K → St K → Prop where
  | acq : ∀ (s : St K) (k : K),
      Step c s (Ev.acq k s.next (acqOp c s k).2) (acqOp c s k).1
  | rel : ∀ (s : St K) (k : K),
      Step c s (Ev.rel k (relOp c s k).2) (relOp c s k).1
  | can : ∀ (s : St K) (i : Nat),
      Step c s (Ev.can i) (canOp s i)
  | cancelAfterGrant : ∀ (s : St K) (i : Nat),
      Step c s (Ev.cancelAfterGrant i) s

/-- States reachable from a freshly constructed lock, together with the
    trace of events that led there. -/
inductive Reach (c : K → (K → Int) → Bool) : List (Ev K) → St K → Prop where
  | init : Reach c [] (initSt K)
  | step : ∀ {tr : List (Ev K)} {s : St K} {e : Ev K} {s' : St K},
      Reach c tr s → Step c s e s' → Reach c (tr ++ [e]) s'

/-- Total number of grants of one kind over a trace. -/
def kindGrants (k : K) (tr : List (Ev K)) : Nat :=
  (tr.map (fun e => kindCount k (grantsOf e))).sum

/-- Total number of grants of one arrival index over a trace. -/
def ridGrants (i : Nat) (tr : List (Ev K)) : Nat :=
  (tr.map (fun e => ridCount i (grantsOf e))).sum

/-- Number of __aexit__ calls for one kind over a trace. -/
def relCount (k : K) (tr : List (Ev K)) : Nat :=
  tr.countP (fun e => match e with | Ev.rel k' _ => decide (k' = k) | _ => false)

/-- Arrival index recorded by an acq event. -/
def ridOfAcq : Ev K → Option Nat
  | Ev.acq _ i _ => some i
  | _ => none

/-- Arrival indices of all __aenter__ calls in a trace, in call order. -/
def acqRids (tr : List (Ev K)) : List Nat :=
  tr.filterMap ridOfAcq

lemma kindGrants_append (k : K) (tr₁ tr₂ : List (Ev K)) :
    kindGrants k (tr₁ ++ tr₂) = kindGrants k tr₁ + kindGrants k tr₂ := by
  simp [kindGrants]

lemma ridGrants_append (i : Nat) (tr₁ tr₂ : List (Ev K)) :
    ridGrants i (tr₁ ++ tr₂) = ridGrants i tr₁ + ridGrants i tr₂ := by
  simp [ridGrants]

lemma relCount_append (k : K) (tr₁ tr₂ : List (Ev K)) :
    relCount k (tr₁ ++ tr₂) = relCount k tr₁ + relCount k tr₂ := by
  simp [relCount, List.countP_append]

lemma acqRids_append (tr₁ tr₂ : List (Ev K)) :
    acqRids (tr₁ ++ tr₂) = acqRids tr₁ ++ acqRids tr₂ := by
  simp [acqRids]

/-- Queue order invariant: waiters sit in the deque in strictly
    increasing arrival order, and every queued arrival index is below
    the fresh-index counter. -/
lemma reach_ridSorted {c : K → (K → Int) → Bool} {tr : List (Ev K)} {s : St K}
    (hre : Reach c tr s) :
    s.waiters.Pairwise (fun a b => a.rid < b.rid) ∧ ∀ r ∈ s.waiters, r.rid < s.next := by
  induction hre with
  | init => exact ⟨List.Pairwise.nil, by simp [initSt]⟩
  | @step tr s e s' hre hst ih =>
    cases hst with
    | acq k =>
      have hq : (s.waiters ++ [newReq k s.next]).Pairwise (fun a b => a.rid < b.rid) := by
        refine List.pairwise_append.mpr ⟨ih.1, List.pairwise_singleton _ _, ?_⟩
        intro a ha b hb
        rw [List.mem_singleton] at hb
        rw [hb]
        exact ih.2 a ha
      obtain ⟨p, hp, _, _⟩ := maybeAcquire_split c (s.waiters ++ [newReq k s.next]) s.holds
      have hsub : (maybeAcquire c (s.waiters ++ [newReq k s.next]) s.holds).2.1.Sublist
          (s.waiters ++ [newReq k s.next]) := by
        conv_rhs => rw [hp]
        exact List.sublist_append_right p _
      constructor
      · exact hq.sublist hsub
      · intro r hr
        have hrq : r ∈ s.waiters ++ [newReq k s.next] := hsub.subset hr
        show r.rid < s.next + 1
        rcases List.mem_append.mp hrq with h1 | h1
        · exact Nat.lt_succ_of_lt (ih.2 r h1)
        · rw [List.mem_singleton] at h1
          rw [h1]
          exact Nat.lt_succ_self _
    | rel k =>
      obtain ⟨p, hp, _, _⟩ := maybeAcquire_split c s.waiters (deduct s.holds k)
      have hsub : (maybeAcquire c s.waiters (deduct s.holds k)).2.1.Sublist s.waiters := by
        conv_rhs => rw [hp]
        exact List.sublist_append_right p _
      exact ⟨ih.1.sublist hsub, fun r hr => ih.2 r (hsub.subset hr)⟩
    | can i =>
      constructor
      · show (s.waiters.map (markCancelled i)).Pairwise (fun a b => a.rid < b.rid)
        rw [List.pairwise_map]
        exact ih.1.imp (fun hab => by rwa [markCancelled_rid, markCancelled_rid])
      · intro r hr
        obtain ⟨r0, hr0, hr0eq⟩ := List.mem_map.mp hr
        show r.rid < s.next
        rw [← hr0eq, markCancelled_rid]
        exact ih.2 r0 hr0
    | cancelAfterGrant i => exact ih

/-- Removal accounting of one admission-loop run: requests leave the
    queue only into the granted list or by being dropped as cancelled,
    so for any arrival index the surviving and granted occurrences
    together never exceed the input occurrences. -/
lemma maybeAcquire_ridCount (c : K → (K → Int) → Bool) (q : List (Req K))
    (h : K → Int) (i : Nat) :
    ridCount i (maybeAcquire c q h).2.1 + ridCount i (maybeAcquire c q h).2.2 ≤
      ridCount i q := by
  obtain ⟨p, hp, hs, _⟩ := maybeAcquire_split c q h
  have h1 : ridCount i (maybeAcquire c q h).2.2 ≤ ridCount i p := hs.countP_le _
  have h2 : ridCount i q = ridCount i p + ridCount i (maybeAcquire c q h).2.1 := by
    conv_lhs => rw [hp]
    simp [ridCount, List.countP_append]
  omega

lemma ridCount_map_markCancelled (i j : Nat) (l : List (Req K)) :
    ridCount i (l.map (markCancelled j)) = ridCount i l := by
  unfold ridCount
  rw [List.countP_map]
  refine List.countP_congr ?_
  intro r hr
  simp [Function.comp, markCancelled_rid]

/-- Hold-table accounting over any execution: each hold bucket holds
    exactly the number of grants of that kind minus the number of
    releases of that kind performed so far. -/
lemma reach_holds_eq {c : K → (K → Int) → Bool} {tr : List (Ev K)} {s : St K}
    (hre : Reach c tr s) (k : K) :
    s.holds k = (kindGrants k tr : Int) - (relCount k tr : Int) := by
  induction hre with
  | init => simp [initSt, kindGrants, relCount]
  | @step tr s e s' hre hst ih =>
    cases hst with
    | acq k' =>
      show (maybeAcquire c (s.waiters ++ [newReq k' s.next]) s.holds).1 k = _
      rw [maybeAcquire_holds, ih, kindGrants_append, relCount_append]
      have hg : kindGrants k [Ev.acq k' s.next (acqOp c s k').2] =
          kindCount k (maybeAcquire c (s.waiters ++ [newReq k' s.next]) s.holds).2.2 := by
        simp [kindGrants, grantsOf, acqOp]
      have hr : relCount k [Ev.acq k' s.next (acqOp c s k').2] = 0 := by
        simp [relCount]
      rw [hg, hr]
      push_cast
      ring
    | rel k' =>
      show (maybeAcquire c s.waiters (deduct s.holds k')).1 k = _
      rw [maybeAcquire_holds, kindGrants_append, relCount_append]
      have hg : kindGrants k [Ev.rel k' (relOp c s k').2] =
          kindCount k (maybeAcquire c s.waiters (deduct s.holds k')).2.2 := by
        simp [kindGrants, grantsOf, relOp]
      rw [hg]
      by_cases hkk : k' = k
      · subst hkk
        have hr : relCount k' [Ev.rel k' (relOp c s k').2] = 1 := by
          simp [relCount]
        rw [hr]
        show deduct s.holds k' k' + _ = _
        unfold deduct
        rw [if_pos rfl, ih]
        push_cast
        ring
      · have hr : relCount k [Ev.rel k' (relOp c s k').2] = 0 := by
          simp [relCount, hkk]
        rw [hr]
        show deduct s.holds k' k + _ = _
        unfold deduct
        rw [if_neg (fun he => hkk he.symm), ih]
        push_cast
        ring
    | can i =>
      show s.holds k = _
      rw [kindGrants_append, relCount_append, ih]
      have hg : kindGrants k [(Ev.can i : Ev K)] = 0 := by simp [kindGrants, grantsOf, kindCount]
      have hr : relCount k [(Ev.can i : Ev K)] = 0 := by simp [relCount]
      rw [hg, hr]
      push_cast
      ring
    | cancelAfterGrant i =>
      rw [kindGrants_append, relCount_append, ih]
      have hg : kindGrants k [(Ev.cancelAfterGrant i : Ev K)] = 0 := by
        simp [kindGrants, grantsOf, kindCount]
      have hr : relCount k [(Ev.cancelAfterGrant i : Ev K)] = 0 := by simp [relCount]
      rw [hg, hr]
      push_cast
      ring

/-- Per-arrival-index accounting over any execution: each arrival index
    is used by at most one __aenter__ call, used indices stay below the
    fresh counter, and the queued plus granted occurrences of an index
    never exceed the number of times it was enqueued. -/
lemma reach_rid_inv {c : K → (K → Int) → Bool} {tr : List (Ev K)} {s : St K}
    (hre : Reach c tr s) (i : Nat) :
    (acqRids tr).count i ≤ 1 ∧ (1 ≤ (acqRids tr).count i → i < s.next) ∧
      ridCount i s.waiters + ridGrants i tr ≤ (acqRids tr).count i := by
  induction hre with
  | init => simp [initSt, acqRids, ridGrants, ridCount]
  | @step tr s e s' hre hst ih =>
    obtain ⟨h1, h2, h3⟩ := ih
    cases hst with
    | acq k' =>
      have hsplit := maybeAcquire_ridCount c (s.waiters ++ [newReq k' s.next]) s.holds i
      have hacq : acqRids (tr ++ [Ev.acq k' s.next (acqOp c s k').2]) =
          acqRids tr ++ [s.next] := by
        rw [acqRids_append]
        rfl
      have hgr : ridGrants i (tr ++ [Ev.acq k' s.next (acqOp c s k').2]) =
          ridGrants i tr +
            ridCount i (maybeAcquire c (s.waiters ++ [newReq k' s.next]) s.holds).2.2 := by
        rw [ridGrants_append]
        simp [ridGrants, grantsOf, acqOp]
      have hwaiters : ridCount i ((acqOp c s k').1).waiters =
          ridCount i (maybeAcquire c (s.waiters ++ [newReq k' s.next]) s.holds).2.1 := rfl
      have hnext : ((acqOp c s k').1).next = s.next + 1 := rfl
      have hqc : ridCount i (s.waiters ++ [newReq k' s.next]) =
          ridCount i s.waiters + (if s.next = i then 1 else 0) := by
        simp [ridCount, List.countP_append, List.countP_cons, newReq]
      by_cases hni : s.next = i
      · subst hni
        have h0 : (acqRids tr).count s.next = 0 := by
          by_contra hne
          exact absurd (h2 (Nat.one_le_iff_ne_zero.mpr hne)) (lt_irrefl _)
        have hone : ([s.next] : List Nat).count s.next = 1 := by simp
        refine ⟨?_, ?_, ?_⟩
        · rw [hacq, List.count_append, h0, hone]
        · intro _
          rw [hnext]
          omega
        · rw [hacq, hgr, hwaiters, List.count_append, h0, hone]
          rw [if_pos rfl] at hqc
          omega
      · have hzero : ([s.next] : List Nat).count i = 0 := by
          rw [List.count_eq_zero]
          simp
          omega
        have hcount : (acqRids (tr ++ [Ev.acq k' s.next (acqOp c s k').2])).count i =
            (acqRids tr).count i := by
          rw [hacq, List.count_append, hzero]
          omega
        rw [if_neg hni] at hqc
        refine ⟨?_, ?_, ?_⟩
        · rw [hcount]
          exact h1
        · intro hle
          rw [hcount] at hle
          rw [hnext]
          exact Nat.lt_succ_of_lt (h2 hle)
        · rw [hcount, hgr, hwaiters]
          omega
    | rel k' =>
      have hsplit := maybeAcquire_ridCount c s.waiters (deduct s.holds k') i
      have hacq : acqRids (tr ++ [Ev.rel k' (relOp c s k').2]) = acqRids tr := by
        rw [acqRids_append]
        simp [acqRids, ridOfAcq]
      have hgr : ridGrants i (tr ++ [Ev.rel k' (relOp c s k').2]) =
          ridGrants i tr + ridCount i (maybeAcquire c s.waiters (deduct s.holds k')).2.2 := by
        rw [ridGrants_append]
        simp [ridGrants, grantsOf, relOp]
      have hwaiters : ridCount i ((relOp c s k').1).waiters =
          ridCount i (maybeAcquire c s.waiters (deduct s.holds k')).2.1 := rfl
      refine ⟨by rw [hacq]; exact h1, ?_, ?_⟩
      · intro hle
        rw [hacq] at hle
        exact h2 hle
      · rw [hacq, hgr, hwaiters]
        omega
    | can j =>
      have hacq : acqRids (tr ++ [(Ev.can j : Ev K)]) = acqRids tr := by
        rw [acqRids_append]
        simp [acqRids, ridOfAcq]
      have hgr : ridGrants i (tr ++ [(Ev.can j : Ev K)]) = ridGrants i tr := by
        rw [ridGrants_append]
        simp [ridGrants, grantsOf, ridCount]
      have hwaiters : ridCount i ((canOp s j).waiters) = ridCount i s.waiters := by
        show ridCount i (s.waiters.map (markCancelled j)) = _
        exact ridCount_map_markCancelled i j s.waiters
      rw [hacq, hgr, hwaiters]
      exact ⟨h1, h2, h3⟩
    | cancelAfterGrant j =>
      have hacq : acqRids (tr ++ [(Ev.cancelAfterGrant j : Ev K)]) = acqRids tr := by
        rw [acqRids_append]
        simp [acqRids, ridOfAcq]
      have hgr : ridGrants i (tr ++ [(Ev.cancelAfterGrant j : Ev K)]) = ridGrants i tr := by
        rw [ridGrants_append]
        simp [ridGrants, grantsOf, ridCount]
      rw [hacq, hgr]
      exact ⟨h1, h2, h3⟩

/-- Every request granted anywhere in an execution had a pending (not
    cancelled) future at the moment the admission loop resolved it. -/
lemma reach_grants_pending {c : K → (K → Int) → Bool} {tr : List (Ev K)} {s : St K}
    (hre : Reach c tr s) :
    ∀ e ∈ tr, ∀ r ∈ grantsOf e, r.cancelled = false := by
  induction hre with
  | init => simp
  | @step tr s e s' hre hst ih =>
    intro e0 he0 r hr
    rcases List.mem_append.mp he0 with he0 | he0
    · exact ih e0 he0 r hr
    · rw [List.mem_singleton] at he0
      subst he0
      cases hst with
      | acq k' =>
        obtain ⟨_, _, _, hpend⟩ := maybeAcquire_split c (s.waiters ++ [newReq k' s.next]) s.holds
        exact hpend r hr
      | rel k' =>
        obtain ⟨_, _, _, hpend⟩ := maybeAcquire_split c s.waiters (deduct s.holds k')
        exact hpend r hr
      | can j => cases hr
      | cancelAfterGrant j => cases hr

/-- Every queued waiter stems from an __aenter__ call recorded in the
    trace (its arrival index is among the recorded ones). -/
lemma reach_waiter_rids {c : K → (K → Int) → Bool} {tr : List (Ev K)} {s : St K}
    (hre : Reach c tr s) :
    ∀ r ∈ s.waiters, r.rid ∈ acqRids tr := by
  induction hre with
  | init => simp [initSt]
  | @step tr s e s' hre hst ih =>
    cases hst with
    | acq k' =>
      intro r hr
      obtain ⟨p, hp, _, _⟩ := maybeAcquire_split c (s.waiters ++ [newReq k' s.next]) s.holds
      have hsub : (maybeAcquire c (s.waiters ++ [newReq k' s.next]) s.holds).2.1.Sublist
          (s.waiters ++ [newReq k' s.next]) := by
        conv_rhs => rw [hp]
        exact List.sublist_append_right p _
      have hrq : r ∈ s.waiters ++ [newReq k' s.next] := hsub.subset hr
      rw [acqRids_append]
      rcases List.mem_append.mp hrq with h1 | h1
      · exact List.mem_append_left _ (ih r h1)
      · rw [List.mem_singleton] at h1
        refine List.mem_append_right _ ?_
        rw [h1]
        show (s.next : Nat) ∈ acqRids [Ev.acq k' s.next (acqOp c s k').2]
        simp [acqRids, ridOfAcq]
    | rel k' =>
      intro r hr
      obtain ⟨p, hp, _, _⟩ := maybeAcquire_split c s.waiters (deduct s.holds k')
      have hsub : (maybeAcquire c s.waiters (deduct s.holds k')).2.1.Sublist s.waiters := by
        conv_rhs => rw [hp]
        exact List.sublist_append_right p _
      rw [acqRids_append]
      exact List.mem_append_left _ (ih r (hsub.subset hr))
    | can j =>
      intro r hr
      obtain ⟨r0, hr0, hr0eq⟩ := List.mem_map.mp hr
      rw [acqRids_append]
      refine List.mem_append_left _ ?_
      rw [← hr0eq, markCancelled_rid]
      exact ih r0 hr0
    | cancelAfterGrant j =>
      intro r hr
      rw [acqRids_append]
      exact List.mem_append_left _ (ih r hr)

/-- Mode-kind identities of the built-in policy classes of the source
    (Mutex, Read, Write, and one semaphore class produced by
    semaphore_factory); the holds table of C5's policy layer is keyed by
    these. -/
inductive MK where
  | mutex
  | read
  | write
  | sem

deriving instance DecidableEq for MK

/-- Python truth test applied by the built-in policies: for an int n,
    the expression not n is True exactly when n == 0. -/
def pyNot (n : Int) : Bool :=
  decide (n = 0)

/-- Mutex.is_compatible (src/fifolock.py lines 47-50): not holds[Mutex]. -/
def mutexIsCompatible (holds : MK → Int) : Bool :=
  pyNot (holds MK.mutex)

/-- Read.is_compatible (src/fifolock.py lines 53-56): not holds[Write]. -/
def readIsCompatible (holds : MK → Int) : Bool :=
  pyNot (holds MK.write)

/-- Write.is_compatible (src/fifolock.py lines 59-62):
    not holds[Read] and not holds[Write]. -/
def writeIsCompatible (holds : MK → Int) : Bool :=
  pyNot (holds MK.read) && pyNot (holds MK.write)

/-- SemaphoreBase.is_compatible for a semaphore class of capacity size
    (src/fifolock.py lines 65-72): holds[cls] < cls.size. -/
def semIsCompatible (size : Int) (holds : MK → Int) : Bool :=
  decide (holds MK.sem < size)

/-- A single-kind mutex-style compatibility policy over the unit kind,
    used to drive the transition system on concrete executions:
    compatible exactly when the hold bucket is zero. -/
def mutexC : Unit → (Unit → Int) → Bool :=
  fun _ h => decide (h () = 0)

/-- A single-kind semaphore-of-capacity-2 policy over the unit kind. -/
def semC : Unit → (Unit → Int) → Bool :=
  fun _ h => decide (h () < 2)

/-- Concrete execution, mutex policy: state after one __aenter__ on a
    fresh lock (the request is granted synchronously). -/
def sM1 : St Unit :=
  (acqOp mutexC (initSt Unit) ()).1

/-- Concrete trace leading to sM1. -/
def trM1 : List (Ev Unit) :=
  [Ev.acq () 0 (acqOp mutexC (initSt Unit) ()).2]

lemma reach_sM1 : Reach mutexC trM1 sM1 :=
  Reach.step Reach.init (Step.acq (initSt Unit) ())

/-- Concrete execution, mutex policy: state after a second __aenter__
    (the second request queues behind the held mutex). -/
def sM2 : St Unit :=
  (acqOp mutexC sM1 ()).1

/-- Concrete trace leading to sM2. -/
def trM2 : List (Ev Unit) :=
  trM1 ++ [Ev.acq () 1 (acqOp mutexC sM1 ()).2]

lemma reach_sM2 : Reach mutexC trM2 sM2 :=
  Reach.step reach_sM1 (Step.acq sM1 ())

/-- Concrete execution, semaphore policy: state after four __aenter__
    calls on a fresh lock; the first two are granted, the third and
    fourth wait. -/
def sS4 : St Unit :=
  (acqOp semC ((acqOp semC ((acqOp semC ((acqOp semC (initSt Unit) ()).1) ()).1) ()).1) ()).1

lemma reach_sS4 : ∃ tr, Reach semC tr sS4 :=
  ⟨_, Reach.step (Reach.step (Reach.step (Reach.step Reach.init
    (Step.acq (initSt Unit) ())) (Step.acq _ ())) (Step.acq _ ())) (Step.acq _ ())⟩

/-- Claim C2: admission loop contract.  Each invocation of
    _maybe_acquire examines the head of the wait queue and in each step
    exactly one of three cases applies: a cancelled head is removed with
    the holds unchanged and the loop continues; a compatible pending
    head is removed, its kind's hold count incremented by exactly one,
    and it is granted, with the continuation of the loop checking
    compatibility against the holds as updated by that grant; otherwise
    the loop stops leaving that request and everything behind it queued.
    Every invocation runs to this fixed point: it stops only on an empty
    queue or at a pending head incompatible with the final holds. -/
theorem admission_loop_contract (c : K → (K → Int) → Bool) :
    (∀ h : K → Int, maybeAcquire c [] h = (h, [], [])) ∧
    (∀ (r : Req K) (q : List (Req K)) (h : K → Int), r.cancelled = true →
      maybeAcquire c (r :: q) h = maybeAcquire c q h) ∧
    (∀ (r : Req K) (q : List (Req K)) (h : K → Int), r.cancelled = false →
      c r.kind h = true →
      maybeAcquire c (r :: q) h =
        ((maybeAcquire c q (bump h r.kind)).1,
          (maybeAcquire c q (bump h r.kind)).2.1,
          r :: (maybeAcquire c q (bump h r.kind)).2.2)) ∧
    (∀ (r : Req K) (q : List (Req K)) (h : K → Int), r.cancelled = false →
      c r.kind h = false →
      maybeAcquire c (r :: q) h = (h, r :: q, [])) ∧
    (∀ (q : List (Req K)) (h : K → Int),
      (maybeAcquire c q h).2.1 = [] ∨
        ∃ r t, (maybeAcquire c q h).2.1 = r :: t ∧ r.cancelled = false ∧
          c r.kind ((maybeAcquire c q h).1) = false) :=
  ⟨fun h => maybeAcquire_nil c h,
   fun r q h hr => maybeAcquire_cons_cancelled c q h hr,
   fun r q h hr hco => maybeAcquire_cons_grant c q h hr hco,
   fun r q h hr hco => maybeAcquire_cons_blocked c q h hr hco,
   fun q h => maybeAcquire_stop c q h⟩

/-- Witness for C2: the four head cases of the contract evaluated on
    concrete queues under the mutex-style policy. -/
theorem admission_loop_contract_witness :
    (maybeAcquire mutexC [] (fun _ => (0 : Int)) = ((fun _ => (0 : Int)), [], [])) ∧
    (maybeAcquire mutexC [⟨(), 0, true⟩] (fun _ => (0 : Int)) =
      maybeAcquire mutexC [] (fun _ => (0 : Int))) ∧
    (maybeAcquire mutexC [⟨(), 0, false⟩] (fun _ => (0 : Int)) =
      ((maybeAcquire mutexC [] (bump (fun _ => (0 : Int)) ())).1,
        (maybeAcquire mutexC [] (bump (fun _ => (0 : Int)) ())).2.1,
        (⟨(), 0, false⟩ : Req Unit) ::
          (maybeAcquire mutexC [] (bump (fun _ => (0 : Int)) ())).2.2)) ∧
    (maybeAcquire mutexC [⟨(), 1, false⟩] (fun _ => (1 : Int)) =
      ((fun _ => (1 : Int)), [⟨(), 1, false⟩], [])) :=
  ⟨(admission_loop_contract mutexC).1 _,
   (admission_loop_contract mutexC).2.1 _ [] _ rfl,
   (admission_loop_contract mutexC).2.2.1 _ [] _ rfl (by decide),
   (admission_loop_contract mutexC).2.2.2.1 _ [] _ rfl (by decide)⟩

/-- Claim C7: idempotent admission.  Running the admission loop a second
    time on the queue and holds left by a first run changes nothing: the
    holds and the queue are the same as after the single run and the
    second run grants no request. -/
theorem admission_idempotent (c : K → (K → Int) → Bool) (q : List (Req K)) (h : K → Int) :
    maybeAcquire c (maybeAcquire c q h).2.1 (maybeAcquire c q h).1 =
      ((maybeAcquire c q h).1, (maybeAcquire c q h).2.1, []) := by
  rcases maybeAcquire_stop c q h with h0 | ⟨r, t, heq, hcan, hcomp⟩
  · rw [h0]
    rfl
  · rw [heq]
    rw [maybeAcquire_cons_blocked c t ((maybeAcquire c q h).1) hcan hcomp]

/-- Claim C5: the built-in compatibility policies compute exactly the
    documented predicates over the current hold table: Mutex is
    compatible iff holds[Mutex] == 0; Read iff holds[Write] == 0; Write
    iff holds[Read] == 0 and holds[Write] == 0; a semaphore of capacity
    size iff holds[this-kind] < size. -/
theorem builtin_policies (holds : MK → Int) :
    (mutexIsCompatible holds = true ↔ holds MK.mutex = 0) ∧
    (readIsCompatible holds = true ↔ holds MK.write = 0) ∧
    (writeIsCompatible holds = true ↔ (holds MK.read = 0 ∧ holds MK.write = 0)) ∧
    (∀ size : Int, semIsCompatible size holds = true ↔ holds MK.sem < size) := by
  refine ⟨?_, ?_, ?_, ?_⟩ <;>
    simp [mutexIsCompatible, readIsCompatible, writeIsCompatible, semIsCompatible, pyNot]

/-- Claim C1: FIFO fairness, no barging.  In any reachable state, if a
    request is still in the wait queue after a step — in particular a
    pending request whose mode is incompatible with the holds the step
    started from — then every request granted during that step arrived
    strictly earlier than it: no later request is ever granted ahead of
    an earlier request that is still queued. -/
theorem fifo_no_barging {c : K → (K → Int) → Bool} {tr : List (Ev K)} {s : St K}
    {e : Ev K} {s' : St K} {ri rj : Req K}
    (hre : Reach c tr s) (hst : Step c s e s')
    (hmem : ri ∈ s'.waiters) (hpend : ri.cancelled = false)
    (hincomp : c ri.kind s.holds = false)
    (hg : rj ∈ grantsOf e) : rj.rid < ri.rid := by
  have hsorted := reach_ridSorted hre
  cases hst with
  | acq k' =>
    have hq : (s.waiters ++ [newReq k' s.next]).Pairwise (fun a b => a.rid < b.rid) := by
      refine List.pairwise_append.mpr ⟨hsorted.1, List.pairwise_singleton _ _, ?_⟩
      intro a ha b hb
      rw [List.mem_singleton] at hb
      rw [hb]
      exact hsorted.2 a ha
    obtain ⟨p, hp, hs, _⟩ := maybeAcquire_split c (s.waiters ++ [newReq k' s.next]) s.holds
    have hjp : rj ∈ p := hs.subset hg
    rw [hp] at hq
    exact (List.pairwise_append.mp hq).2.2 rj hjp ri hmem
  | rel k' =>
    obtain ⟨p, hp, hs, _⟩ := maybeAcquire_split c s.waiters (deduct s.holds k')
    have hjp : rj ∈ p := hs.subset hg
    have hq := hsorted.1
    rw [hp] at hq
    exact (List.pairwise_append.mp hq).2.2 rj hjp ri hmem
  | can j => cases hg
  | cancelAfterGrant j => cases hg

/-- Witness for C1: on the semaphore-of-2 lock with two holds and two
    queued requests (arrival indices 2 and 3), a release grants request
    2 while request 3 — pending and incompatible with the pre-release
    holds — stays queued, and the granted request arrived earlier. -/
theorem fifo_no_barging_witness :
    ((⟨(), 3, false⟩ : Req Unit) ∈ ((relOp semC sS4 ()).1).waiters ∧
      (⟨(), 3, false⟩ : Req Unit).cancelled = false ∧
      semC () sS4.holds = false ∧
      (⟨(), 2, false⟩ : Req Unit) ∈ grantsOf (Ev.rel () (relOp semC sS4 ()).2)) ∧
    (⟨(), 2, false⟩ : Req Unit).rid < (⟨(), 3, false⟩ : Req Unit).rid := by
  obtain ⟨tr, hre⟩ := reach_sS4
  refine ⟨⟨by decide, rfl, by decide, by decide⟩, ?_⟩
  exact fifo_no_barging hre (Step.rel sS4 ()) (by decide) rfl (by decide) (by decide)

/-- Claim C4: hold conservation.  In every reachable state each hold
    bucket equals the number of grants of that kind minus the number of
    releases of that kind so far (i.e. the granted, not-yet-released
    requests of that kind), and under the discipline that __aexit__ runs
    at most once per grant of its kind the bucket is never negative. -/
theorem hold_conservation {c : K → (K → Int) → Bool} {tr : List (Ev K)} {s : St K}
    (hre : Reach c tr s) (k : K) :
    s.holds k = (kindGrants k tr : Int) - (relCount k tr : Int) ∧
      (relCount k tr ≤ kindGrants k tr → 0 ≤ s.holds k) := by
  have heq := reach_holds_eq hre k
  refine ⟨heq, fun hle => ?_⟩
  rw [heq]
  omega

/-- Witness for C4: after one granted mutex acquire, the release count
    does not exceed the grant count, the hold bucket equals grants minus
    releases, and it is nonnegative. -/
theorem hold_conservation_witness :
    relCount () trM1 ≤ kindGrants () trM1 ∧
      sM1.holds () = (kindGrants () trM1 : Int) - (relCount () trM1 : Int) ∧
      0 ≤ sM1.holds () :=
  ⟨by decide, (hold_conservation reach_sM1 ()).1,
    (hold_conservation reach_sM1 ()).2 (by decide)⟩

/-- Claim C9: single-resolution safety.  Over any execution each arrival
    index is granted at most once (a request's future is resolved with
    success at most once, and a request removed from the queue is never
    reinserted and regranted), and every granted request was pending —
    never already cancelled — when the admission loop resolved it. -/
theorem single_resolution {c : K → (K → Int) → Bool} {tr : List (Ev K)} {s : St K}
    (hre : Reach c tr s) (i : Nat) :
    ridGrants i tr ≤ 1 ∧ ∀ e ∈ tr, ∀ r ∈ grantsOf e, r.cancelled = false := by
  obtain ⟨h1, _, h3⟩ := reach_rid_inv hre i
  exact ⟨by omega, reach_grants_pending hre⟩

/-- Witness for C9: on the one-grant mutex trace, arrival index 0 is
    granted at most once, and the granted request of its acq event was
    pending. -/
theorem single_resolution_witness :
    ridGrants 0 trM1 ≤ 1 ∧ (⟨(), 0, false⟩ : Req Unit).cancelled = false :=
  ⟨(single_resolution reach_sM1 0).1,
    (single_resolution reach_sM1 0).2 (Ev.acq () 0 (acqOp mutexC (initSt Unit) ()).2)
      (by decide) ⟨(), 0, false⟩ (by decide)⟩

/-- Claim C10: fresh request per acquisition.  Every __aenter__ call
    constructs a brand-new request with a fresh arrival index, so the
    indices of all acquisitions in a trace are pairwise distinct — two
    acquisitions through the same context manager never share a queue
    entry — while every queued waiter belongs to the single shared
    queue of the lock and stems from one recorded acquisition. -/
theorem fresh_request_ids {c : K → (K → Int) → Bool} {tr : List (Ev K)} {s : St K}
    (hre : Reach c tr s) :
    (acqRids tr).Nodup ∧ ∀ r ∈ s.waiters, r.rid ∈ acqRids tr := by
  constructor
  · rw [List.nodup_iff_count_le_one]
    intro i
    exact (reach_rid_inv hre i).1
  · exact reach_waiter_rids hre

/-- Witness for C10: two acquisitions through the same mutex context
    manager got the distinct arrival indices 0 and 1, and the still
    queued second request's index is among the recorded acquisitions. -/
theorem fresh_request_ids_witness :
    (acqRids trM2).Nodup ∧ (1 : Nat) ∈ acqRids trM2 :=
  ⟨(fresh_request_ids reach_sM2).1,
    (fresh_request_ids reach_sM2).2 ⟨(), 1, false⟩ (by decide)⟩

/-- Claim C8: uncontended synchronous grant.  An __aenter__ call made
    while the wait queue is empty and the requested mode is compatible
    with the current holds grants the new request inside the call
    itself: before the suspension point the request's future is resolved
    with success, its kind's hold bucket is incremented by one, and the
    queue is empty again, so an uncontended acquire never waits. -/
theorem uncontended_acquire {c : K → (K → Int) → Bool} {s : St K} (k : K)
    (hq : s.waiters = []) (hc : c k s.holds = true) :
    (acqOp c s k).2 = [newReq k s.next] ∧
      ((acqOp c s k).1).holds k = s.holds k + 1 ∧
      ((acqOp c s k).1).waiters = [] := by
  have hstep : maybeAcquire c (s.waiters ++ [newReq k s.next]) s.holds =
      ((maybeAcquire c [] (bump s.holds k)).1,
        (maybeAcquire c [] (bump s.holds k)).2.1,
        newReq k s.next :: (maybeAcquire c [] (bump s.holds k)).2.2) := by
    rw [hq, List.nil_append]
    exact maybeAcquire_cons_grant c [] s.holds rfl hc
  refine ⟨?_, ?_, ?_⟩
  · show (maybeAcquire c (s.waiters ++ [newReq k s.next]) s.holds).2.2 = _
    rw [hstep]
    rfl
  · show (maybeAcquire c (s.waiters ++ [newReq k s.next]) s.holds).1 k = _
    rw [hstep]
    show bump s.holds k k = s.holds k + 1
    unfold bump
    rw [if_pos rfl]
  · show (maybeAcquire c (s.waiters ++ [newReq k s.next]) s.holds).2.1 = _
    rw [hstep]
    rfl

/-- Witness for C8: on a fresh mutex lock the queue is empty and the
    mode compatible, and the single acquire is granted synchronously
    with the hold bucket going from 0 to 1. -/
theorem uncontended_acquire_witness :
    (initSt Unit).waiters = [] ∧ mutexC () (initSt Unit).holds = true ∧
      ((acqOp mutexC (initSt Unit) ()).2 = [newReq () 0] ∧
        ((acqOp mutexC (initSt Unit) ()).1).holds () = (initSt Unit).holds () + 1 ∧
        ((acqOp mutexC (initSt Unit) ()).1).waiters = []) :=
  ⟨rfl, by decide, uncontended_acquire () rfl (by decide)⟩

/-- Counterexample to claim C6: release is not guarded.  On a freshly
    constructed lock a single __aexit__ step (a release with no matching
    prior grant) is a legal step of the code and silently drives the
    mutex hold bucket to the negative value -1: the code neither
    asserts nor panics, and this execution path leaves a hold count
    negative. -/
theorem release_without_grant_goes_negative :
    Step mutexC (initSt Unit) (Ev.rel () (relOp mutexC (initSt Unit) ()).2)
        ((relOp mutexC (initSt Unit) ()).1) ∧
      ((relOp mutexC (initSt Unit) ()).1).holds () = -1 :=
  ⟨Step.rel (initSt Unit) (), by decide⟩

/-- Amended claim C6: a release with no matching prior grant does not
    fail; __aexit__ unconditionally and silently decrements the hold
    bucket of its mode kind — on an empty queue by exactly one, possibly
    below zero — and never signals an error.  Nonnegativity of the hold
    counts holds only under the caller discipline of one release per
    grant (see hold conservation). -/
theorem release_silent_decrement {c : K → (K → Int) → Bool} {s : St K} (k : K)
    (hq : s.waiters = []) :
    ((relOp c s k).1).holds k = s.holds k - 1 ∧ (relOp c s k).2 = [] := by
  constructor
  · show (maybeAcquire c s.waiters (deduct s.holds k)).1 k = _
    rw [hq, maybeAcquire_nil]
    show deduct s.holds k k = _
    unfold deduct
    rw [if_pos rfl]
  · show (maybeAcquire c s.waiters (deduct s.holds k)).2.2 = _
    rw [hq, maybeAcquire_nil]

/-- Witness for the amended C6: the unmatched release on the fresh lock
    decrements the mutex bucket from 0 to -1 without granting anything. -/
theorem release_silent_decrement_witness :
    (initSt Unit).waiters = [] ∧
      ((relOp mutexC (initSt Unit) ()).1).holds () = (initSt Unit).holds () - 1 ∧
      (relOp mutexC (initSt Unit) ()).2 = [] :=
  ⟨rfl, (release_silent_decrement () rfl).1, (release_silent_decrement () rfl).2⟩

/-- Claim C3 shows a code bug: no grant/cancel race compensation.  On a
    fresh mutex lock the first acquire is granted synchronously (its
    future resolved, holds[Mutex] = 1).  If the acquiring task is then
    cancelled before resuming, __aenter__ (src/fifolock.py lines 36-40)
    has no handler: the CancelledError propagates, __aexit__ never runs,
    and the lock state is unchanged — the step is a no-op.  The hold is
    never rolled back and no admission loop is re-run, so the hold leaks
    permanently: a later acquire of the same mode is not granted and the
    bucket stays at 1, contradicting the specified compensation. -/
theorem grant_cancel_race_leaks_hold :
    (acqOp mutexC (initSt Unit) ()).2 = [⟨(), 0, false⟩] ∧
      Step mutexC sM1 (Ev.cancelAfterGrant 0) sM1 ∧
      sM1.holds () = 1 ∧
      (acqOp mutexC sM1 ()).2 = [] ∧
      ((acqOp mutexC sM1 ()).1).holds () = 1 :=
  ⟨by decide, Step.cancelAfterGrant sM1 0, by decide, by decide, by decide⟩
